import Mathlib

/-!
# SenseNote anchor pipeline: a shallow embedding

This file embeds the core of the SenseNote content script
(src/popup.js): the text linearizer, anchor capture, context-aware
anchor resolution, range materialization, highlight wrapping and
unwrapping, the restoration batch, and the scroll-retry procedure.

Strings are modelled as lists of characters (`Str`), so JavaScript
`indexOf`, `substring`, `trim` and concatenation become ordinary list
operations.  The DOM is modelled as a tree whose leaves are text nodes
and whose inner nodes are elements; the only element attribute that the
embedded code inspects is the highlight wrapper marker (the
mark2link-highlight class together with the data-highlight-id
attribute), modelled as an `Option Str` on each element.
-/

/-- Characters treated as whitespace by the embedded trim check. -/
def isWsChar (c : Char) : Bool :=
  c = ' ' || c = '\t' || c = '\n' || c = '\r'

/-- Character-list strings, the text model of the embedding. -/
abbrev Str := List Char

/-- JavaScript `!s.trim()`: true when every character is whitespace
(including the empty string). -/
def allWs (s : Str) : Bool :=
  s.all isWsChar

/-- `leadsWith pat s` holds when `pat` occurs at the very start of `s`. -/
def leadsWith : Str → Str → Bool
  | [], _ => true
  | _ :: _, [] => false
  | c :: p, d :: s => c = d && leadsWith p s

/-- JavaScript `hay.indexOf(pat)` (first occurrence), with the index
threaded through an accumulator. -/
def strIndexOfAux (pat : Str) : Str → Nat → Option Nat
  | [], i => if leadsWith pat [] then some i else none
  | c :: s, i => if leadsWith pat (c :: s) then some i else strIndexOfAux pat s (i + 1)

/-- JavaScript `hay.indexOf(pat)`, returning `none` for `-1`. -/
def strIndexOf (hay pat : Str) : Option Nat :=
  strIndexOfAux pat hay 0

/-- `pat` occurs in `s` at position `i`. -/
def matchAt (s pat : Str) (i : Nat) : Prop :=
  leadsWith pat (s.drop i) = true

instance (s pat : Str) (i : Nat) : Decidable (matchAt s pat i) := by
  unfold matchAt; infer_instance

mutual
/-- A DOM node: a text node or an element.  The `Option Str` on an
element is `some id` exactly when the element is a highlight wrapper
(class mark2link-highlight, attribute data-highlight-id = id). -/
inductive DomNode where
  | text : Str → DomNode
  | elem : Option Str → DomForest → DomNode

/-- A sibling list of DOM nodes (the children of an element, or the
top-level content of the document body). -/
inductive DomForest where
  | nil : DomForest
  | cons : DomNode → DomForest → DomForest
end

/-- Build a `DomForest` from a list literal. -/
def fOf : List DomNode → DomForest
  | [] => DomForest.nil
  | n :: t => DomForest.cons n (fOf t)

/-- Append two sibling lists. -/
def appF : DomForest → DomForest → DomForest
  | DomForest.nil, g => g
  | DomForest.cons n f, g => DomForest.cons n (appF f g)

mutual
/-- `textContent` of a node: the concatenation of all its text leaves. -/
def textN : DomNode → Str
  | DomNode.text s => s
  | DomNode.elem _ cs => textF cs

/-- `textContent` of a sibling list. -/
def textF : DomForest → Str
  | DomForest.nil => []
  | DomForest.cons n f => textN n ++ textF f
end

mutual
/-- All text leaves of a node in document order, each paired with the
flag "the direct parent element is a highlight wrapper".  The incoming
flag describes the parent of the node itself. -/
def leavesN : DomNode → Bool → List (Str × Bool)
  | DomNode.text s, ph => [(s, ph)]
  | DomNode.elem h cs, _ => leavesF cs h.isSome

/-- All text leaves of a sibling list, with the parent-wrapper flag. -/
def leavesF : DomForest → Bool → List (Str × Bool)
  | DomForest.nil, _ => []
  | DomForest.cons n f, ph => leavesN n ph ++ leavesF f ph
end

/-- The document's text leaves (document order), with wrapper flags. -/
def docLeaves (f : DomForest) : List (Str × Bool) :=
  leavesF f false

/-- Texts of the document's leaves. -/
def docLeafTexts (f : DomForest) : List Str :=
  (docLeaves f).map Prod.fst

mutual
/-- Number of text leaves of a node. -/
def leafCountN : DomNode → Nat
  | DomNode.text _ => 1
  | DomNode.elem _ cs => leafCountF cs

/-- Number of text leaves of a sibling list. -/
def leafCountF : DomForest → Nat
  | DomForest.nil => 0
  | DomForest.cons n f => leafCountN n + leafCountF f
end

/-- The TreeWalker filter used at resolution time (popup.js line 652):
reject whitespace-only text nodes and text nodes whose direct parent
element carries the mark2link-highlight class. -/
def resolveAccept (p : Str × Bool) : Bool :=
  !allWs p.1 && !p.2

/-- The TreeWalker filter used at capture time (popup.js line 1047):
reject only whitespace-only text nodes. -/
def captureAccept (p : Str × Bool) : Bool :=
  !allWs p.1

/-- One text run of the linear model: global leaf index, text, and its
half-open interval in linear-text coordinates. -/
structure Run where
  idx : Nat
  text : Str
  start : Nat
  stop : Nat
deriving DecidableEq, Repr

/-- Lay out accepted (index, text) pairs contiguously from `base`
(popup.js lines 667-677 and 1061-1068). -/
def buildRuns : List (Nat × Str) → Nat → List Run
  | [], _ => []
  | (i, t) :: rest, base =>
    { idx := i, text := t, start := base, stop := base + t.length } :: buildRuns rest (base + t.length)

/-- The accepted (global leaf index, text) pairs of the resolution-time
walk. -/
def resolveInput (f : DomForest) : List (Nat × Str) :=
  ((docLeaves f).enum.filter (fun p => resolveAccept p.2)).map (fun p => (p.1, p.2.1))

/-- The run list built by `findTextWithContext` (popup.js 663-677). -/
def resolveRuns (f : DomForest) : List Run :=
  buildRuns (resolveInput f) 0

/-- The `fullText` string accumulated by the resolution-time walk. -/
def resolveFullText (f : DomForest) : Str :=
  ((resolveInput f).map Prod.snd).flatten

/-- The search-index computation of `findTextWithContext` (popup.js
679-702): try the exact concatenation textBefore + searchText +
textAfter first, then fall back to searchText alone. -/
def resolveSearchIndex (fullText searchText textBefore textAfter : Str) : Option Nat :=
  let contextPattern := textBefore ++ searchText ++ textAfter
  let fromCtx : Option Nat :=
    if textBefore ≠ [] ∨ textAfter ≠ [] then
      (strIndexOf fullText contextPattern).map (· + textBefore.length)
    else none
  match fromCtx with
  | some k => some k
  | none => strIndexOf fullText searchText

/-- A materialized range: start and end boundaries as (global leaf
index, character offset within that leaf) pairs. -/
structure RangeRes where
  startIdx : Nat
  startOff : Nat
  endIdx : Nat
  endOff : Nat
deriving DecidableEq, Repr

/-- The start-boundary search (popup.js 713-715): the first run whose
half-open interval contains the target start. -/
def findStartRun (runs : List Run) (target : Nat) : Option Run :=
  runs.find? (fun r => decide (r.start ≤ target ∧ target < r.stop))

/-- The end-boundary search (popup.js 719-721): the first run such that
start < target and target ≤ stop. -/
def findEndRun (runs : List Run) (target : Nat) : Option Run :=
  runs.find? (fun r => decide (r.start < target ∧ target ≤ r.stop))

/-- `range.toString()` for a range whose boundaries are text leaves:
every leaf strictly between the boundary leaves contributes its full
text, whether or not a walker accepted it. -/
def rangeToString (f : DomForest) (r : RangeRes) : Str :=
  let ls := docLeafTexts f
  if r.startIdx = r.endIdx then
    ((ls.getD r.startIdx []).take r.endOff).drop r.startOff
  else
    (ls.getD r.startIdx []).drop r.startOff
      ++ ((ls.drop (r.startIdx + 1)).take (r.endIdx - r.startIdx - 1)).flatten
      ++ (ls.getD r.endIdx []).take r.endOff

/-- The final verification of `findTextWithContext` (popup.js
734-741): the materialized range text must equal the search text, else
the match is discarded. -/
def resolveVerify (f : DomForest) (searchText : Str) (r : RangeRes) : Option RangeRes :=
  if rangeToString f r = searchText then some r else none

/-- `findTextWithContext` (popup.js 642-750): empty-text guard, walk,
two-tier search, boundary mapping, and post-match verification. -/
def findTextWithContext (f : DomForest) (searchText textBefore textAfter : Str) : Option RangeRes :=
  if searchText.length = 0 then none
  else
    match resolveSearchIndex (resolveFullText f) searchText textBefore textAfter with
    | none => none
    | some si =>
      match findStartRun (resolveRuns f) si, findEndRun (resolveRuns f) (si + searchText.length) with
      | some sr, some er =>
        resolveVerify f searchText
          { startIdx := sr.idx, startOff := si - sr.start
            endIdx := er.idx, endOff := si + searchText.length - er.start }
      | some _, none => none
      | none, _ => none

/-! ## Anchor capture (createHighlightFromText, popup.js 1028-1106) -/

/-- The serializable anchor record built at capture time (the fields
that matter to resolution; annotation fields are carried unchanged by
the storage collaborator and are omitted). -/
structure Highlight where
  id : Str
  text : Str
  textBefore : Str
  textAfter : Str
  startOffset : Nat
  endOffset : Nat
deriving DecidableEq, Repr

/-- The accepted (global leaf index, text) pairs of the capture-time
walk.  Unlike `resolveInput`, only whitespace-only nodes are rejected
(popup.js 1046-1052). -/
def captureInput (f : DomForest) : List (Nat × Str) :=
  ((docLeaves f).enum.filter (fun p => captureAccept p.2)).map (fun p => (p.1, p.2.1))

/-- The run list built by the capture-time walk. -/
def captureRuns (f : DomForest) : List Run :=
  buildRuns (captureInput f) 0

/-- The `fullText` string accumulated by the capture-time walk. -/
def captureFullText (f : DomForest) : Str :=
  ((captureInput f).map Prod.snd).flatten

/-- The bounded context window length (popup.js 1081). -/
def contextLength : Nat := 50

/-- Locate the run owning the selection start container (popup.js
1072-1078): `none` models a start container that is not among the
walked text nodes (or not a text node at all). -/
def locateStartRun (runs : List Run) (startContainer : Option Nat) : Option Run :=
  startContainer.bind (fun k => runs.find? (fun r => decide (r.idx = k)))

/-- The capture portion of `createHighlightFromText` (popup.js
1028-1106): walk the document, locate the selection start, compute
absolute offsets, slice both context windows, and assemble the record.
When the start container is not located both offsets stay 0. -/
def createHighlightFromText (f : DomForest) (startContainer : Option Nat)
    (startOffsetInNode : Nat) (text : Str) (id : Str) : Highlight :=
  let runs := captureRuns f
  let fullText := captureFullText f
  let offs : Nat × Nat :=
    match locateStartRun runs startContainer with
    | some r => (r.start + startOffsetInNode, r.start + startOffsetInNode + text.length)
    | none => (0, 0)
  let textBefore := (fullText.take offs.1).drop (offs.1 - contextLength)
  let textAfter := (fullText.drop offs.2).take contextLength
  { id := id, text := text, textBefore := textBefore, textAfter := textAfter,
    startOffset := offs.1, endOffset := offs.2 }

/-! ## Wrapper presence -/

mutual
/-- Does the node's subtree contain a highlight wrapper with this id
(`document.querySelector` by data-highlight-id)? -/
def hasWrapperN : DomNode → Str → Bool
  | DomNode.text _, _ => false
  | DomNode.elem h cs, id => h = some id || hasWrapperF cs id

/-- Does the sibling list contain a wrapper with this id? -/
def hasWrapperF : DomForest → Str → Bool
  | DomForest.nil, _ => false
  | DomForest.cons n f, id => hasWrapperN n id || hasWrapperF f id
end

mutual
/-- Number of wrapper elements with this id in the node's subtree. -/
def wrapperCountN : DomNode → Str → Nat
  | DomNode.text _, _ => 0
  | DomNode.elem h cs, id => (if h = some id then 1 else 0) + wrapperCountF cs id

/-- Number of wrapper elements with this id in the sibling list. -/
def wrapperCountF : DomForest → Str → Nat
  | DomForest.nil, _ => 0
  | DomForest.cons n f, id => wrapperCountN n id + wrapperCountF f id
end

/-- `createRangeFromHighlight` (popup.js 629-639): skip when a live
wrapper with the anchor's id already exists, otherwise resolve. -/
def createRangeFromHighlight (f : DomForest) (h : Highlight) : Option RangeRes :=
  if hasWrapperF f h.id then none
  else findTextWithContext f h.text h.textBefore h.textAfter

/-! ## Highlight wrapping (applyHighlight, popup.js 753-809)

`Range.surroundContents` is specified as extractContents followed by
insertNode, so both the primary and the fallback strategy perform the
same surgery; the fallback additionally normalizes the wrapper's
parent.  The surgery is modelled leaf-exactly: a partially covered
element is split into an original and a clone (as `extractContents`
does), and the wrapper is inserted at the start boundary, inside the
start leaf's parent. -/

mutual
/-- Split a node at the point (leaf `i` within the node, character
offset `o` inside that leaf) into a before part and an after part.
Partially covered elements appear, cloned, on both sides. -/
def splitPointN : DomNode → Nat → Nat → (DomForest × DomForest)
  | DomNode.text t, _, o => (fOf [DomNode.text (t.take o)], fOf [DomNode.text (t.drop o)])
  | DomNode.elem h cs, i, o =>
    (fOf [DomNode.elem h (splitPointF cs i o).1], fOf [DomNode.elem h (splitPointF cs i o).2])

/-- Split a sibling list at a point given by a relative leaf index. -/
def splitPointF : DomForest → Nat → Nat → (DomForest × DomForest)
  | DomForest.nil, _, _ => (DomForest.nil, DomForest.nil)
  | DomForest.cons c rest, i, o =>
    if leafCountN c ≤ i then
      (DomForest.cons c (splitPointF rest (i - leafCountN c) o).1,
       (splitPointF rest (i - leafCountN c) o).2)
    else
      ((splitPointN c i o).1, appF (splitPointN c i o).2 rest)
end

/-- Insert a node at the collapsed start point of an extracted range:
descend along the rightmost spine (the kept head piece of the start
leaf is the rightmost leaf after tail removal) and place the node right
after it, inside the start leaf's parent. -/
def appendAtPoint : DomForest → DomNode → DomForest
  | DomForest.nil, w => DomForest.cons w DomForest.nil
  | DomForest.cons (DomNode.text s) DomForest.nil, w =>
    DomForest.cons (DomNode.text s) (DomForest.cons w DomForest.nil)
  | DomForest.cons (DomNode.elem h cs) DomForest.nil, w =>
    DomForest.cons (DomNode.elem h (appendAtPoint cs w)) DomForest.nil
  | DomForest.cons c (DomForest.cons c2 rest), w =>
    DomForest.cons c (appendAtPoint (DomForest.cons c2 rest) w)

mutual
/-- Wrap the span from (leaf `i`, offset `so`) to (leaf `j`, offset
`eo`) of a sibling list in a fresh highlight wrapper, modelling
extractContents followed by insertNode at the start boundary. -/
def wrapF : DomForest → Nat → Nat → Nat → Nat → Str → DomForest
  | DomForest.nil, _, _, _, _, _ => DomForest.nil
  | DomForest.cons c rest, i, so, j, eo, id =>
    if leafCountN c ≤ i then
      DomForest.cons c (wrapF rest (i - leafCountN c) so (j - leafCountN c) eo id)
    else if j < leafCountN c then
      appF (wrapN c i so j eo id) rest
    else
      appF
        (appendAtPoint (splitPointN c i so).1
          (DomNode.elem (some id)
            (appF (splitPointN c i so).2 (splitPointF rest (j - leafCountN c) eo).1)))
        (splitPointF rest (j - leafCountN c) eo).2

/-- Wrap a span lying entirely inside one node. -/
def wrapN : DomNode → Nat → Nat → Nat → Nat → Str → DomForest
  | DomNode.text t, _, so, _, eo, id =>
    fOf [DomNode.text (t.take so),
         DomNode.elem (some id) (fOf [DomNode.text ((t.take eo).drop so)]),
         DomNode.text (t.drop eo)]
  | DomNode.elem h cs, i, so, j, eo, id =>
    fOf [DomNode.elem h (wrapF cs i so j eo id)]
end

/-- `Node.normalize()`: remove empty text nodes and merge adjacent text
nodes, throughout the subtree. -/
def coalesce : DomForest → DomForest
  | DomForest.nil => DomForest.nil
  | DomForest.cons (DomNode.text s) f =>
    if s = [] then coalesce f
    else
      match coalesce f with
      | DomForest.cons (DomNode.text t) r' => DomForest.cons (DomNode.text (s ++ t)) r'
      | r => DomForest.cons (DomNode.text s) r
  | DomForest.cons (DomNode.elem h cs) f =>
    DomForest.cons (DomNode.elem h (coalesce cs)) (coalesce f)

/-- Locate the first wrapper with this id (pre-order) and normalize its
parent's subtree (popup.js 799-802).  Flag 2: found as a direct child
of this sibling list (the caller owns the parent and must coalesce);
flag 1: found and already normalized deeper; flag 0: not found. -/
def normAtWrapperF (id : Str) : DomForest → (DomForest × Nat)
  | DomForest.nil => (DomForest.nil, 0)
  | DomForest.cons (DomNode.text s) f =>
    (DomForest.cons (DomNode.text s) (normAtWrapperF id f).1, (normAtWrapperF id f).2)
  | DomForest.cons (DomNode.elem h cs) f =>
    if h = some id then (DomForest.cons (DomNode.elem h cs) f, 2)
    else if (normAtWrapperF id cs).2 = 2 then
      (DomForest.cons (DomNode.elem h (coalesce (normAtWrapperF id cs).1)) f, 1)
    else if (normAtWrapperF id cs).2 = 1 then
      (DomForest.cons (DomNode.elem h (normAtWrapperF id cs).1) f, 1)
    else
      (DomForest.cons (DomNode.elem h cs) (normAtWrapperF id f).1, (normAtWrapperF id f).2)

/-- Normalize around the wrapper with this id (top level = body). -/
def normalizeAtWrapper (id : Str) (f : DomForest) : DomForest :=
  if (normAtWrapperF id f).2 = 2 then coalesce (normAtWrapperF id f).1
  else (normAtWrapperF id f).1

mutual
/-- Path of the parent element of each text leaf of a node (document
order), used to decide whether `surroundContents` applies. -/
def leafParentsN : DomNode → List Nat → Nat → List (List Nat)
  | DomNode.text _, pp, _ => [pp]
  | DomNode.elem _ cs, pp, k => leafParentsF cs (pp ++ [k]) 0

/-- Parent paths of the leaves of a sibling list. -/
def leafParentsF : DomForest → List Nat → Nat → List (List Nat)
  | DomForest.nil, _, _ => []
  | DomForest.cons n f, pp, k => leafParentsN n pp k ++ leafParentsF f pp (k + 1)
end

/-- Parent paths of the document's leaves. -/
def docLeafParents (f : DomForest) : List (List Nat) :=
  leafParentsF f [] 0

/-- Do leaves `i` and `j` share the same parent element?  This is the
condition under which `surroundContents` succeeds (the range partially
contains no element). -/
def sameParentLeaves (f : DomForest) (i j : Nat) : Bool :=
  decide ((docLeafParents f).get? i = (docLeafParents f).get? j)

/-- `applyHighlight` (popup.js 753-809): collapsed guard, then the
surroundContents surgery; on the fallback path (range crosses element
boundaries) the wrapper's parent is additionally normalized. -/
def applyHighlight (f : DomForest) (r : RangeRes) (id : Str) : DomForest :=
  if r.startIdx = r.endIdx ∧ r.startOff = r.endOff then f
  else if sameParentLeaves f r.startIdx r.endIdx then
    wrapF f r.startIdx r.startOff r.endIdx r.endOff id
  else normalizeAtWrapper id (wrapF f r.startIdx r.startOff r.endIdx r.endOff id)

/-! ## Highlight removal (deleteHighlight, popup.js 1335-1360) -/

/-- Find the first wrapper with this id (pre-order), splice its
children into its parent at its former position, and have the owner of
the parent normalize the parent's subtree.  Same flag protocol as
`normAtWrapperF`. -/
def deleteHighlightF (id : Str) : DomForest → (DomForest × Nat)
  | DomForest.nil => (DomForest.nil, 0)
  | DomForest.cons (DomNode.text s) f =>
    (DomForest.cons (DomNode.text s) (deleteHighlightF id f).1, (deleteHighlightF id f).2)
  | DomForest.cons (DomNode.elem h cs) f =>
    if h = some id then (appF cs f, 2)
    else if (deleteHighlightF id cs).2 = 2 then
      (DomForest.cons (DomNode.elem h (coalesce (deleteHighlightF id cs).1)) f, 1)
    else if (deleteHighlightF id cs).2 = 1 then
      (DomForest.cons (DomNode.elem h (deleteHighlightF id cs).1) f, 1)
    else
      (DomForest.cons (DomNode.elem h cs) (deleteHighlightF id f).1, (deleteHighlightF id f).2)

/-- The DOM part of `deleteHighlight`: remove the wrapper, splice its
children back, normalize the parent (popup.js 1347-1355). -/
def deleteHighlight (id : Str) (f : DomForest) : DomForest :=
  if (deleteHighlightF id f).2 = 2 then coalesce (deleteHighlightF id f).1
  else (deleteHighlightF id f).1

/-! ## Restoration batch (restoreHighlights, popup.js 600-626) -/

/-- Aggregate outcome of a restoration batch. -/
structure RestoreResult where
  success : Nat
  fail : Nat
  doc : DomForest

/-- `restoreHighlights`: one resolution attempt per anchor, in stored
order; a null range counts as a failure and the batch continues. -/
def restoreHighlights : List Highlight → DomForest → RestoreResult
  | [], f => { success := 0, fail := 0, doc := f }
  | h :: t, f =>
    match createRangeFromHighlight f h with
    | some r =>
      { success := (restoreHighlights t (applyHighlight f r h.id)).success + 1
        fail := (restoreHighlights t (applyHighlight f r h.id)).fail
        doc := (restoreHighlights t (applyHighlight f r h.id)).doc }
    | none =>
      { success := (restoreHighlights t f).success
        fail := (restoreHighlights t f).fail + 1
        doc := (restoreHighlights t f).doc }

/-- One capture-resolve-materialize-apply-remove round trip of a single
anchor on a document. -/
def roundTripOnce (h : Highlight) (f : DomForest) : DomForest :=
  match createRangeFromHighlight f h with
  | some r => deleteHighlight h.id (applyHighlight f r h.id)
  | none => f

/-! ## Scroll-to-highlight retry (scrollToHighlightFromHash, popup.js 1380-1416) -/

/-- Attempt cap of the scroll poller (popup.js 1386). -/
def scrollMaxAttempts : Nat := 10

/-- Inter-attempt delay in milliseconds (popup.js 1405). -/
def scrollRetryDelayMs : Nat := 500

/-- Outcome of the scroll poller: whether the element was found, how
many attempts ran, and whether the fragment was cleared from the
visible address. -/
structure ScrollResult where
  found : Bool
  attemptsUsed : Nat
  hashCleared : Bool
deriving DecidableEq, Repr

/-- `tryScroll` (popup.js 1388-1411): `present k` tells whether the
wrapper element is in the document when attempt `k` runs.  The fuel
argument makes the recursion structural; it never runs out before the
attempt cap when started at `scrollMaxAttempts`. -/
def tryScroll (present : Nat → Bool) (attempts : Nat) : Nat → ScrollResult
  | 0 => { found := false, attemptsUsed := attempts, hashCleared := true }
  | fuel + 1 =>
    if present (attempts + 1) then
      { found := true, attemptsUsed := attempts + 1, hashCleared := true }
    else if attempts + 1 < scrollMaxAttempts then tryScroll present (attempts + 1) fuel
    else { found := false, attemptsUsed := attempts + 1, hashCleared := true }

/-- The reserved navigation-fragment marker. -/
def hashMarker : Str := "#sensenote-".toList

/-- `scrollToHighlightFromHash`: only fragments starting with the
reserved marker trigger the poller. -/
def scrollToHighlightFromHash (hash : Str) (present : Nat → Bool) : Option ScrollResult :=
  if leadsWith hashMarker hash then some (tryScroll present 0 scrollMaxAttempts)
  else none

/-- Runs laid out contiguously from a base offset (the shape `buildRuns`
produces). -/
def runsChain : Nat → List Run → Prop
  | _, [] => True
  | base, r :: rest => r.start = base ∧ r.stop = r.start + r.text.length ∧ runsChain r.stop rest

/-! ## Concrete documents used as witnesses and counterexamples -/

/-- A document whose text holds two occurrences of CAT; only the second
is surrounded by the stored context. -/
def exDocCtx : DomForest := fOf [DomNode.text "uu CAT vv aa CAT bb".toList]

/-- A single-paragraph document for simple resolution witnesses. -/
def exDocPlain : DomForest := fOf [DomNode.text "hello world".toList]

/-- A document with one applied wrapper holding visible text, and plain
text after it. -/
def exDocWrapped : DomForest :=
  fOf [DomNode.elem (some "h1".toList) (fOf [DomNode.text "WRAPPED".toList]),
       DomNode.text "rest of text".toList]

/-- Two contiguous runs ab (offsets 0-2) and cd (offsets 2-4). -/
def exDocRuns : DomForest :=
  fOf [DomNode.text "ab".toList,
       DomNode.elem none (fOf [DomNode.text "cd".toList])]

/-- Three paragraphs for batch-restoration scenarios. -/
def exDocBatch : DomForest :=
  fOf [DomNode.elem none (fOf [DomNode.text "alpha one".toList]),
       DomNode.elem none (fOf [DomNode.text "beta two".toList]),
       DomNode.elem none (fOf [DomNode.text "gamma three".toList])]

/-- An anchor whose text no longer appears in `exDocBatch`. -/
def hBad : Highlight :=
  { id := "bad".toList, text := "missing".toList, textBefore := [], textAfter := [],
    startOffset := 0, endOffset := 0 }

/-- A valid anchor for `exDocBatch` (text alpha). -/
def hGood1 : Highlight :=
  { id := "g1".toList, text := "alpha".toList, textBefore := [], textAfter := [],
    startOffset := 0, endOffset := 5 }

/-- A valid anchor for `exDocBatch` (text gamma). -/
def hGood2 : Highlight :=
  { id := "g2".toList, text := "gamma".toList, textBefore := [], textAfter := [],
    startOffset := 17, endOffset := 22 }

/-- An anchor for the idempotence scenario on `exDocBatch`. -/
def hRepeat : Highlight :=
  { id := "rep".toList, text := "beta".toList, textBefore := [], textAfter := [],
    startOffset := 9, endOffset := 13 }

/-- A one-paragraph document for the capture-degradation scenario. -/
def exDocCapture : DomForest :=
  fOf [DomNode.elem none (fOf [DomNode.text "The quick brown fox".toList])]

/-! ## Text-content preservation of the DOM surgery -/

theorem textF_appF : ∀ (a b : DomForest), textF (appF a b) = textF a ++ textF b
  | DomForest.nil, b => by simp [appF, textF]
  | DomForest.cons n a, b => by
    simp [appF, textF, textF_appF a b, List.append_assoc]

mutual
theorem splitPointN_text : (n : DomNode) → (i o : Nat) →
    textF (splitPointN n i o).1 ++ textF (splitPointN n i o).2 = textN n
  | DomNode.text t, _, o => by
    simp [splitPointN, textF, textN, fOf]
  | DomNode.elem h cs, i, o => by
    have ih := splitPointF_text cs i o
    simp [splitPointN, textF, textN, fOf, ih]

theorem splitPointF_text : (f : DomForest) → (i o : Nat) →
    textF (splitPointF f i o).1 ++ textF (splitPointF f i o).2 = textF f
  | DomForest.nil, _, _ => by simp [splitPointF, textF]
  | DomForest.cons c rest, i, o => by
    by_cases hc : leafCountN c ≤ i
    · have ih := splitPointF_text rest (i - leafCountN c) o
      simp only [splitPointF, if_pos hc, textF]
      rw [List.append_assoc, ih]
    · have ih := splitPointN_text c i o
      simp only [splitPointF, if_neg hc, textF, textF_appF]
      rw [← List.append_assoc, ih]
end

theorem appendAtPoint_text : (f : DomForest) → (w : DomNode) →
    textF (appendAtPoint f w) = textF f ++ textN w
  | DomForest.nil, w => by simp [appendAtPoint, textF]
  | DomForest.cons (DomNode.text s) DomForest.nil, w => by
    simp [appendAtPoint, textF, textN]
  | DomForest.cons (DomNode.elem h cs) DomForest.nil, w => by
    have ih := appendAtPoint_text cs w
    simp [appendAtPoint, textF, textN, ih]
  | DomForest.cons c (DomForest.cons c2 rest), w => by
    have ih := appendAtPoint_text (DomForest.cons c2 rest) w
    simp [appendAtPoint, textF, textN, ih, List.append_assoc]

mutual
theorem wrapF_text : (f : DomForest) → (i so j eo : Nat) → (id : Str) →
    (i < j ∨ (i = j ∧ so ≤ eo)) →
    textF (wrapF f i so j eo id) = textF f
  | DomForest.nil, _, _, _, _, _, _ => by simp [wrapF]
  | DomForest.cons c rest, i, so, j, eo, id, hw => by
    by_cases hLc : leafCountN c ≤ i
    · have hw' : i - leafCountN c < j - leafCountN c ∨
          (i - leafCountN c = j - leafCountN c ∧ so ≤ eo) := by
        rcases hw with h | ⟨h1, h2⟩
        · left; omega
        · right; exact ⟨by omega, h2⟩
      have ih := wrapF_text rest (i - leafCountN c) so (j - leafCountN c) eo id hw'
      simp [wrapF, if_pos hLc, textF, ih]
    · by_cases hj : j < leafCountN c
      · have ih := wrapN_text c i so j eo id hw hj
        simp [wrapF, if_neg hLc, if_pos hj, textF_appF, textF, ih]
      · have hs := splitPointN_text c i so
        have hm := splitPointF_text rest (j - leafCountN c) eo
        simp only [wrapF, if_neg hLc, if_neg hj, textF_appF, appendAtPoint_text, textN, textF]
        rw [← hs, ← hm]
        simp [List.append_assoc]

theorem wrapN_text : (n : DomNode) → (i so j eo : Nat) → (id : Str) →
    (i < j ∨ (i = j ∧ so ≤ eo)) → (j < leafCountN n) →
    textF (wrapN n i so j eo id) = textN n
  | DomNode.text t, i, so, j, eo, id, hw, hj => by
    have hso : so ≤ eo := by
      simp only [leafCountN] at hj
      rcases hw with h | ⟨_, h2⟩
      · omega
      · exact h2
    have h1 : t.take so = (t.take eo).take so := by
      rw [List.take_take]
      congr 1
      omega
    simp only [wrapN, fOf, textF, textN, List.append_nil]
    rw [h1, ← List.append_assoc, List.take_append_drop, List.take_append_drop]
  | DomNode.elem h cs, i, so, j, eo, id, hw, hj => by
    have ih := wrapF_text cs i so j eo id hw
    simp [wrapN, textF, textN, fOf, ih]
end

theorem coalesce_text : (f : DomForest) → textF (coalesce f) = textF f
  | DomForest.nil => rfl
  | DomForest.cons (DomNode.text s) f => by
    have ih := coalesce_text f
    by_cases hs : s = ([] : Str)
    · subst hs
      simp [coalesce, textF, textN, ih]
    · simp only [coalesce, if_neg hs]
      split
      · rename_i t r' heq
        rw [heq] at ih
        simp only [textF, textN] at ih ⊢
        rw [List.append_assoc, ih]
      · simp only [textF, textN, ih]
  | DomForest.cons (DomNode.elem h cs) f => by
    have ih1 := coalesce_text cs
    have ih2 := coalesce_text f
    simp [coalesce, textF, textN, ih1, ih2]

theorem normAtWrapperF_text (id : Str) : (f : DomForest) → textF (normAtWrapperF id f).1 = textF f
  | DomForest.nil => rfl
  | DomForest.cons (DomNode.text s) f => by
    have ih := normAtWrapperF_text id f
    simp [normAtWrapperF, textF, ih]
  | DomForest.cons (DomNode.elem h cs) f => by
    have ihc := normAtWrapperF_text id cs
    have ihf := normAtWrapperF_text id f
    by_cases h1 : h = some id
    · simp [normAtWrapperF, h1]
    · by_cases h2 : (normAtWrapperF id cs).2 = 2
      · simp [normAtWrapperF, h1, h2, textF, textN, coalesce_text, ihc]
      · by_cases h3 : (normAtWrapperF id cs).2 = 1
        · simp [normAtWrapperF, h1, h2, h3, textF, textN, ihc]
        · simp [normAtWrapperF, h1, h2, h3, textF, textN, ihf]

theorem normalizeAtWrapper_text (id : Str) (f : DomForest) :
    textF (normalizeAtWrapper id f) = textF f := by
  unfold normalizeAtWrapper
  split
  · rw [coalesce_text, normAtWrapperF_text]
  · rw [normAtWrapperF_text]

theorem deleteHighlightF_text (id : Str) : (f : DomForest) → textF (deleteHighlightF id f).1 = textF f
  | DomForest.nil => rfl
  | DomForest.cons (DomNode.text s) f => by
    have ih := deleteHighlightF_text id f
    simp [deleteHighlightF, textF, ih]
  | DomForest.cons (DomNode.elem h cs) f => by
    have ihc := deleteHighlightF_text id cs
    have ihf := deleteHighlightF_text id f
    by_cases h1 : h = some id
    · simp [deleteHighlightF, h1, textF_appF, textF, textN]
    · by_cases h2 : (deleteHighlightF id cs).2 = 2
      · simp [deleteHighlightF, h1, h2, textF, textN, coalesce_text, ihc]
      · by_cases h3 : (deleteHighlightF id cs).2 = 1
        · simp [deleteHighlightF, h1, h2, h3, textF, textN, ihc]
        · simp [deleteHighlightF, h1, h2, h3, textF, textN, ihf]

theorem deleteHighlight_text (id : Str) (f : DomForest) :
    textF (deleteHighlight id f) = textF f := by
  unfold deleteHighlight
  split
  · rw [coalesce_text, deleteHighlightF_text]
  · rw [deleteHighlightF_text]

theorem applyHighlight_text (f : DomForest) (r : RangeRes) (id : Str)
    (hw : r.startIdx < r.endIdx ∨ (r.startIdx = r.endIdx ∧ r.startOff ≤ r.endOff)) :
    textF (applyHighlight f r id) = textF f := by
  by_cases hcol : r.startIdx = r.endIdx ∧ r.startOff = r.endOff
  · simp [applyHighlight, hcol]
  · by_cases hsp : sameParentLeaves f r.startIdx r.endIdx = true
    · simp [applyHighlight, hcol, hsp, wrapF_text _ _ _ _ _ _ hw]
    · simp [applyHighlight, hcol, hsp, normalizeAtWrapper_text,
        wrapF_text _ _ _ _ _ _ hw]

/-! ## Well-formedness of resolved ranges -/

theorem buildRuns_chain : ∀ (l : List (Nat × Str)) (base : Nat), runsChain base (buildRuns l base)
  | [], _ => trivial
  | (_i, t) :: rest, base => ⟨rfl, rfl, buildRuns_chain rest (base + t.length)⟩

theorem runsChain_mem : ∀ (l : List Run) (base : Nat) (r : Run), runsChain base l → r ∈ l →
    base ≤ r.start ∧ r.stop = r.start + r.text.length
  | [], _, r, _, hm => absurd hm (by simp)
  | x :: l, base, r, hc, hm => by
    obtain ⟨h1, h2, h3⟩ := hc
    rcases List.mem_cons.mp hm with rfl | hm'
    · exact ⟨by omega, h2⟩
    · have ih := runsChain_mem l x.stop r h3 hm'
      exact ⟨by omega, ih.2⟩

theorem buildRuns_map_idx : ∀ (l : List (Nat × Str)) (base : Nat),
    (buildRuns l base).map Run.idx = l.map Prod.fst
  | [], _ => rfl
  | (_i, t) :: rest, base => by
    simp [buildRuns, buildRuns_map_idx rest (base + t.length)]

theorem resolveRuns_idx_pairwise (f : DomForest) :
    ((resolveRuns f).map Run.idx).Pairwise (· < ·) := by
  rw [resolveRuns, buildRuns_map_idx, resolveInput, List.map_map]
  have hcomp : (Prod.fst ∘ fun p : Nat × (Str × Bool) => (p.1, p.2.1)) = Prod.fst := rfl
  rw [hcomp]
  have hsub : List.Sublist ((docLeaves f).enum.filter (fun p => resolveAccept p.2))
      (docLeaves f).enum := List.filter_sublist _
  have hsubm := List.Sublist.map Prod.fst hsub
  have hpr : ((docLeaves f).enum.map Prod.fst).Pairwise (· < ·) := by
    rw [List.enum_map_fst]
    exact List.pairwise_lt_range _
  exact List.Pairwise.sublist hsubm hpr

theorem findRuns_order : ∀ (l : List Run) (base tS tE : Nat) (s e : Run),
    runsChain base l → (l.map Run.idx).Pairwise (· < ·) → tS < tE →
    findStartRun l tS = some s → findEndRun l tE = some e →
    s.idx < e.idx ∨ s = e
  | [], _, _, _, s, e, _, _, _, hs, _ => by
    simp [findStartRun] at hs
  | r :: l, base, tS, tE, s, e, hc, hp, hlt, hs, he => by
    obtain ⟨hc1, hc2, hc3⟩ := hc
    have hp' : (∀ x ∈ l, r.idx < x.idx) ∧ ((l.map Run.idx).Pairwise (· < ·)) := by
      simpa using hp
    by_cases hsp : r.start ≤ tS ∧ tS < r.stop
    · have hs' : s = r := by
        rw [findStartRun, List.find?_cons_of_pos _ (by simpa using hsp)] at hs
        exact (Option.some.injEq _ _).mp hs.symm
      subst hs'
      by_cases hep : s.start < tE ∧ tE ≤ s.stop
      · have he' : e = s := by
          rw [findEndRun, List.find?_cons_of_pos _ (by simpa using hep)] at he
          exact (Option.some.injEq _ _).mp he.symm
        right
        exact he'.symm
      · rw [findEndRun, List.find?_cons_of_neg _ (by simpa using hep)] at he
        have hem := List.mem_of_find?_eq_some he
        left
        exact hp'.1 e hem
    · rw [findStartRun, List.find?_cons_of_neg _ (by simpa using hsp)] at hs
      by_cases hep : r.start < tE ∧ tE ≤ r.stop
      · have hsm := List.mem_of_find?_eq_some hs
        have hsge := runsChain_mem l r.stop s hc3 hsm
        have hspred := List.find?_some hs
        simp only [decide_eq_true_eq] at hspred
        omega
      · rw [findEndRun, List.find?_cons_of_neg _ (by simpa using hep)] at he
        exact findRuns_order l r.stop tS tE s e hc3 hp'.2 hlt hs he

theorem findTextWithContext_wf (f : DomForest) (t b a : Str) (r : RangeRes)
    (h : findTextWithContext f t b a = some r) :
    r.startIdx < r.endIdx ∨ (r.startIdx = r.endIdx ∧ r.startOff ≤ r.endOff) := by
  unfold findTextWithContext at h
  split at h
  · exact absurd h (by simp)
  · rename_i hlen
    split at h
    · exact absurd h (by simp)
    · rename_i si hsi
      split at h
      · rename_i sr er hfs hfe
        unfold resolveVerify at h
        split at h
        · obtain rfl : _ = r := by injection h
          have hlt : si < si + t.length := by
            have : t.length ≠ 0 := hlen
            omega
          have hord := findRuns_order (resolveRuns f) 0 si (si + t.length) sr er
            (buildRuns_chain _ 0) (resolveRuns_idx_pairwise f) hlt hfs hfe
          rcases hord with hord | rfl
          · left
            exact hord
          · right
            refine ⟨rfl, ?_⟩
            simp only []
            omega
        · exact absurd h (by simp)
      · exact absurd h (by simp)
      · exact absurd h (by simp)

theorem createRange_some_find (f : DomForest) (h : Highlight) (r : RangeRes)
    (hcr : createRangeFromHighlight f h = some r) :
    findTextWithContext f h.text h.textBefore h.textAfter = some r := by
  unfold createRangeFromHighlight at hcr
  split at hcr
  · exact absurd hcr (by simp)
  · exact hcr

theorem roundTripOnce_text (h : Highlight) (f : DomForest) :
    textF (roundTripOnce h f) = textF f := by
  cases hcr : createRangeFromHighlight f h with
  | none => simp [roundTripOnce, hcr]
  | some r =>
    have hfind := createRange_some_find f h r hcr
    have hwf := findTextWithContext_wf f h.text h.textBefore h.textAfter r hfind
    simp [roundTripOnce, hcr, deleteHighlight_text, applyHighlight_text f r h.id hwf]

/-! ## C2: round-trip identity -/

/-- C2.  For every document and every capture input, capturing an
anchor and then running resolve, materialize, apply, remove any number
of times leaves the document's text content (the concatenation of all
its text leaves in document order) character-for-character identical.
The final conjunct exhibits a concrete document on which the pipeline
actually applies and removes a wrapper (the round trip is not vacuous). -/
theorem roundTripPreservesDocumentText (f : DomForest) (sc : Option Nat) (o : Nat)
    (t id : Str) (n : Nat) :
    textF ((roundTripOnce (createHighlightFromText f sc o t id))^[n] f) = textF f ∧
    (createRangeFromHighlight exDocBatch hRepeat).isSome = true := by
  refine ⟨?_, by decide⟩
  induction n with
  | zero => simp
  | succ n ih => rw [Function.iterate_succ_apply', roundTripOnce_text, ih]

/-! ## Properties of the substring search -/

theorem strIndexOfAux_sound (pat : Str) :
    ∀ (s : Str) (i j : Nat), strIndexOfAux pat s i = some j →
      i ≤ j ∧ leadsWith pat (s.drop (j - i)) = true := by
  intro s
  induction s with
  | nil =>
    intro i j h
    unfold strIndexOfAux at h
    split at h
    · rename_i hl
      obtain rfl : i = j := by injection h
      simpa using hl
    · exact absurd h (by simp)
  | cons c s ih =>
    intro i j h
    unfold strIndexOfAux at h
    split at h
    · rename_i hl
      obtain rfl : i = j := by injection h
      simpa using hl
    · obtain ⟨h1, h2⟩ := ih (i + 1) j h
      refine ⟨by omega, ?_⟩
      have hji : j - i = (j - (i + 1)) + 1 := by omega
      rw [hji, List.drop_succ_cons]
      exact h2

theorem strIndexOfAux_least (pat : Str) :
    ∀ (s : Str) (i j : Nat), strIndexOfAux pat s i = some j →
      ∀ k, i ≤ k → k < j → leadsWith pat (s.drop (k - i)) = false := by
  intro s
  induction s with
  | nil =>
    intro i j h k hik hkj
    unfold strIndexOfAux at h
    split at h
    · obtain rfl : i = j := by injection h
      omega
    · exact absurd h (by simp)
  | cons c s ih =>
    intro i j h k hik hkj
    unfold strIndexOfAux at h
    split at h
    · obtain rfl : i = j := by injection h
      omega
    · rename_i hl
      rcases Nat.eq_or_lt_of_le hik with rfl | hik'
      · simpa [Nat.sub_self] using hl
      · have hk : k - i = (k - (i + 1)) + 1 := by omega
        rw [hk, List.drop_succ_cons]
        exact ih (i + 1) j h k hik' hkj

theorem strIndexOfAux_none (pat : Str) :
    ∀ (s : Str) (i : Nat), strIndexOfAux pat s i = none →
      ∀ k, i ≤ k → leadsWith pat (s.drop (k - i)) = false := by
  intro s
  induction s with
  | nil =>
    intro i h k hik
    unfold strIndexOfAux at h
    split at h
    · exact absurd h (by simp)
    · rename_i hl
      simpa using hl
  | cons c s ih =>
    intro i h k hik
    unfold strIndexOfAux at h
    split at h
    · exact absurd h (by simp)
    · rename_i hl
      rcases Nat.eq_or_lt_of_le hik with rfl | hik'
      · simpa [Nat.sub_self] using hl
      · have hk : k - i = (k - (i + 1)) + 1 := by omega
        rw [hk, List.drop_succ_cons]
        exact ih (i + 1) h k hik'

theorem strIndexOf_matchAt {hay pat : Str} {i : Nat}
    (h : strIndexOf hay pat = some i) : matchAt hay pat i := by
  have := strIndexOfAux_sound pat hay 0 i h
  simpa [matchAt] using this.2

theorem strIndexOf_least {hay pat : Str} {i : Nat}
    (h : strIndexOf hay pat = some i) : ∀ j, j < i → ¬ matchAt hay pat j := by
  intro j hj hm
  have := strIndexOfAux_least pat hay 0 i h j (Nat.zero_le j) hj
  rw [matchAt] at hm
  simp only [Nat.sub_zero] at this
  rw [hm] at this
  exact Bool.noConfusion this

theorem strIndexOf_none {hay pat : Str}
    (h : strIndexOf hay pat = none) : ∀ j, ¬ matchAt hay pat j := by
  intro j hm
  have := strIndexOfAux_none pat hay 0 h j (Nat.zero_le j)
  rw [matchAt] at hm
  simp only [Nat.sub_zero] at this
  rw [hm] at this
  exact Bool.noConfusion this

theorem leadsWith_append_left {x y s : Str}
    (h : leadsWith (x ++ y) s = true) : leadsWith x s = true := by
  induction x generalizing s with
  | nil => rfl
  | cons c x ih =>
    cases s with
    | nil => exact absurd h (by simp [leadsWith])
    | cons d s =>
      simp only [List.cons_append, leadsWith, Bool.and_eq_true] at h ⊢
      exact ⟨h.1, ih h.2⟩

theorem leadsWith_append_drop {x y s : Str}
    (h : leadsWith (x ++ y) s = true) : leadsWith y (s.drop x.length) = true := by
  induction x generalizing s with
  | nil => simpa using h
  | cons c x ih =>
    cases s with
    | nil => exact absurd h (by simp [leadsWith])
    | cons d s =>
      simp only [List.cons_append, leadsWith, Bool.and_eq_true] at h
      simpa using ih h.2

theorem matchAt_concat_inner {s b t a : Str} {p : Nat}
    (h : matchAt s (b ++ t ++ a) p) : matchAt s t (p + b.length) := by
  rw [matchAt] at h ⊢
  have h1 : leadsWith (t ++ a) ((s.drop p).drop b.length) = true := by
    have := leadsWith_append_drop (x := b) (y := t ++ a) (by simpa [List.append_assoc] using h)
    exact this
  have h2 : (s.drop p).drop b.length = s.drop (p + b.length) := by
    rw [List.drop_drop]
  rw [h2] at h1
  exact leadsWith_append_left h1

theorem strIndexOf_empty_pattern : ∀ s : Str, strIndexOf s [] = some 0 := by
  intro s
  cases s <;> rfl

/-! ## Wrapper-count bookkeeping -/

theorem wrapperCountF_appF : ∀ (a b : DomForest) (id : Str),
    wrapperCountF (appF a b) id = wrapperCountF a id + wrapperCountF b id
  | DomForest.nil, b, id => by simp [appF, wrapperCountF]
  | DomForest.cons n a, b, id => by
    simp only [appF, wrapperCountF, wrapperCountF_appF a b id]
    omega

mutual
theorem hasWrapperN_false_count : (n : DomNode) → (id : Str) → hasWrapperN n id = false →
    wrapperCountN n id = 0
  | DomNode.text _, _, _ => rfl
  | DomNode.elem h cs, id, hh => by
    simp only [hasWrapperN, Bool.or_eq_false_iff] at hh
    have hcs := hasWrapperF_false_count cs id hh.2
    have hni : ¬ (h = some id) := by simpa using hh.1
    simp [wrapperCountN, if_neg hni, hcs]

theorem hasWrapperF_false_count : (f : DomForest) → (id : Str) → hasWrapperF f id = false →
    wrapperCountF f id = 0
  | DomForest.nil, _, _ => rfl
  | DomForest.cons n f, id, hh => by
    simp only [hasWrapperF, Bool.or_eq_false_iff] at hh
    simp [wrapperCountF, hasWrapperN_false_count n id hh.1, hasWrapperF_false_count f id hh.2]
end

mutual
theorem splitPointN_count0 : (n : DomNode) → (i o : Nat) → (id : Str) →
    wrapperCountN n id = 0 →
    wrapperCountF (splitPointN n i o).1 id = 0 ∧ wrapperCountF (splitPointN n i o).2 id = 0
  | DomNode.text t, _, o, id, _ => by
    simp [splitPointN, wrapperCountF, wrapperCountN, fOf]
  | DomNode.elem h cs, i, o, id, hc => by
    simp only [wrapperCountN] at hc
    have hni : ¬ (h = some id) := by
      by_contra hcon
      rw [if_pos hcon] at hc
      omega
    have hcs : wrapperCountF cs id = 0 := by
      rw [if_neg hni] at hc
      omega
    have ih := splitPointF_count0 cs i o id hcs
    simp [splitPointN, wrapperCountF, wrapperCountN, fOf, if_neg hni, ih.1, ih.2]

theorem splitPointF_count0 : (f : DomForest) → (i o : Nat) → (id : Str) →
    wrapperCountF f id = 0 →
    wrapperCountF (splitPointF f i o).1 id = 0 ∧ wrapperCountF (splitPointF f i o).2 id = 0
  | DomForest.nil, _, _, _, _ => by simp [splitPointF, wrapperCountF]
  | DomForest.cons c rest, i, o, id, hc => by
    simp only [wrapperCountF] at hc
    have hcN : wrapperCountN c id = 0 := by omega
    have hcR : wrapperCountF rest id = 0 := by omega
    by_cases hLc : leafCountN c ≤ i
    · have ih := splitPointF_count0 rest (i - leafCountN c) o id hcR
      simp [splitPointF, if_pos hLc, wrapperCountF, hcN, ih.1, ih.2]
    · have ih := splitPointN_count0 c i o id hcN
      simp [splitPointF, if_neg hLc, wrapperCountF_appF, ih.1, ih.2, hcR]
end

theorem appendAtPoint_count : (f : DomForest) → (w : DomNode) → (id : Str) →
    wrapperCountF (appendAtPoint f w) id = wrapperCountF f id + wrapperCountN w id
  | DomForest.nil, w, id => by simp [appendAtPoint, wrapperCountF]
  | DomForest.cons (DomNode.text s) DomForest.nil, w, id => by
    simp [appendAtPoint, wrapperCountF, wrapperCountN]
  | DomForest.cons (DomNode.elem h cs) DomForest.nil, w, id => by
    have ih := appendAtPoint_count cs w id
    simp only [appendAtPoint, wrapperCountF, wrapperCountN, ih]
    omega
  | DomForest.cons c (DomForest.cons c2 rest), w, id => by
    have ih := appendAtPoint_count (DomForest.cons c2 rest) w id
    simp only [appendAtPoint, wrapperCountF, wrapperCountN, ih]
    omega

mutual
theorem wrapF_count : (f : DomForest) → (i so j eo : Nat) → (id : Str) →
    wrapperCountF f id = 0 →
    wrapperCountF (wrapF f i so j eo id) id ≤ 1
  | DomForest.nil, _, _, _, _, _, _ => by simp [wrapF, wrapperCountF]
  | DomForest.cons c rest, i, so, j, eo, id, hc => by
    simp only [wrapperCountF] at hc
    have hcN : wrapperCountN c id = 0 := by omega
    have hcR : wrapperCountF rest id = 0 := by omega
    by_cases hLc : leafCountN c ≤ i
    · have ih := wrapF_count rest (i - leafCountN c) so (j - leafCountN c) eo id hcR
      simp only [wrapF, if_pos hLc, wrapperCountF, hcN]
      omega
    · by_cases hj : j < leafCountN c
      · have ih := wrapN_count c i so j eo id hcN
        simp only [wrapF, if_neg hLc, if_pos hj, wrapperCountF_appF, hcR]
        omega
      · have hsc := splitPointN_count0 c i so id hcN
        have hmc := splitPointF_count0 rest (j - leafCountN c) eo id hcR
        have happ : wrapperCountN (DomNode.elem (some id)
            (appF (splitPointN c i so).2 (splitPointF rest (j - leafCountN c) eo).1)) id = 1 := by
          simp [wrapperCountN, wrapperCountF_appF, hsc.2, hmc.1]
        simp only [wrapF, if_neg hLc, if_neg hj, wrapperCountF_appF, appendAtPoint_count,
          happ, hsc.1, hmc.2]
        omega

theorem wrapN_count : (n : DomNode) → (i so j eo : Nat) → (id : Str) →
    wrapperCountN n id = 0 →
    wrapperCountF (wrapN n i so j eo id) id ≤ 1
  | DomNode.text t, _, so, _, eo, id, _ => by
    simp [wrapN, wrapperCountF, wrapperCountN, fOf]
  | DomNode.elem h cs, i, so, j, eo, id, hc => by
    simp only [wrapperCountN] at hc
    have hni : ¬ (h = some id) := by
      by_contra hcon
      rw [if_pos hcon] at hc
      omega
    have hcs : wrapperCountF cs id = 0 := by
      rw [if_neg hni] at hc
      omega
    have ih := wrapF_count cs i so j eo id hcs
    simp only [wrapN, fOf, wrapperCountF, wrapperCountN, if_neg hni]
    omega

end

theorem coalesce_count : (f : DomForest) → (id : Str) →
    wrapperCountF (coalesce f) id = wrapperCountF f id
  | DomForest.nil, _ => rfl
  | DomForest.cons (DomNode.text s) f, id => by
    have ih := coalesce_count f id
    by_cases hs : s = ([] : Str)
    · subst hs
      simp [coalesce, wrapperCountF, wrapperCountN, ih]
    · simp only [coalesce, if_neg hs]
      split
      · rename_i t r' heq
        rw [heq] at ih
        simp only [wrapperCountF, wrapperCountN] at ih ⊢
        omega
      · simp only [wrapperCountF, wrapperCountN, ih]
  | DomForest.cons (DomNode.elem h cs) f, id => by
    have ih1 := coalesce_count cs id
    have ih2 := coalesce_count f id
    simp [coalesce, wrapperCountF, wrapperCountN, ih1, ih2]

theorem normAtWrapperF_count (idw id : Str) : (f : DomForest) →
    wrapperCountF (normAtWrapperF idw f).1 id = wrapperCountF f id
  | DomForest.nil => rfl
  | DomForest.cons (DomNode.text s) f => by
    have ih := normAtWrapperF_count idw id f
    simp [normAtWrapperF, wrapperCountF, ih]
  | DomForest.cons (DomNode.elem h cs) f => by
    have ihc := normAtWrapperF_count idw id cs
    have ihf := normAtWrapperF_count idw id f
    by_cases h1 : h = some idw
    · simp [normAtWrapperF, h1]
    · by_cases h2 : (normAtWrapperF idw cs).2 = 2
      · simp [normAtWrapperF, h1, h2, wrapperCountF, wrapperCountN, coalesce_count, ihc]
      · by_cases h3 : (normAtWrapperF idw cs).2 = 1
        · simp [normAtWrapperF, h1, h2, h3, wrapperCountF, wrapperCountN, ihc]
        · simp [normAtWrapperF, h1, h2, h3, wrapperCountF, wrapperCountN, ihf]

theorem normalizeAtWrapper_count (idw id : Str) (f : DomForest) :
    wrapperCountF (normalizeAtWrapper idw f) id = wrapperCountF f id := by
  unfold normalizeAtWrapper
  split
  · rw [coalesce_count, normAtWrapperF_count]
  · rw [normAtWrapperF_count]

theorem applyHighlight_count (f : DomForest) (r : RangeRes) (id : Str)
    (hc : wrapperCountF f id = 0) :
    wrapperCountF (applyHighlight f r id) id ≤ 1 := by
  by_cases hcol : r.startIdx = r.endIdx ∧ r.startOff = r.endOff
  · simp [applyHighlight, hcol, hc]
  · by_cases hsp : sameParentLeaves f r.startIdx r.endIdx = true
    · simp only [applyHighlight, if_neg hcol, if_pos hsp]
      exact wrapF_count f _ _ _ _ id hc
    · simp only [applyHighlight, if_neg hcol, if_neg hsp, normalizeAtWrapper_count]
      exact wrapF_count f _ _ _ _ id hc

/-! ## Restoration counts -/

theorem restoreHighlights_counts : ∀ (hs : List Highlight) (f : DomForest),
    (restoreHighlights hs f).success + (restoreHighlights hs f).fail = hs.length
  | [], _ => rfl
  | h :: t, f => by
    cases hcr : createRangeFromHighlight f h with
    | some r =>
      have ih := restoreHighlights_counts t (applyHighlight f r h.id)
      simp only [restoreHighlights, hcr, List.length_cons]
      omega
    | none =>
      have ih := restoreHighlights_counts t f
      simp only [restoreHighlights, hcr, List.length_cons]
      omega

/-! ## C1: context-qualified search offset -/

/-- C1.  When at least one context field is non-empty and the exact
concatenation contextBefore + exactText + contextAfter occurs in the
current linear text at position p (the position `indexOf` finds), the
resolver selects p + length(contextBefore) as the match start. -/
theorem contextMatchSelectsQualifiedOffset (f : DomForest) (t b a : Str) (p : Nat)
    (hctx : b ≠ [] ∨ a ≠ []) (hp : strIndexOf (resolveFullText f) (b ++ t ++ a) = some p) :
    resolveSearchIndex (resolveFullText f) t b a = some (p + b.length) := by
  rw [List.append_assoc] at hp
  simp [resolveSearchIndex, hctx, hp]

/-- Witness for C1, on a document whose text holds two occurrences of
CAT at offsets 3 and 13: with stored context aa / bb the resolver
selects offset 13 (the context-qualified occurrence), not the earlier
bare occurrence at offset 3. -/
theorem contextMatchSelectsQualifiedOffset_witness :
    (("aa ".toList ≠ ([] : Str) ∨ " bb".toList ≠ ([] : Str)) ∧
      strIndexOf (resolveFullText exDocCtx) ("aa ".toList ++ "CAT".toList ++ " bb".toList) =
        some 10) ∧
    resolveSearchIndex (resolveFullText exDocCtx) "CAT".toList "aa ".toList " bb".toList =
      some 13 ∧
    strIndexOf (resolveFullText exDocCtx) "CAT".toList = some 3 ∧ (13 : Nat) ≠ 3 := by
  refine ⟨⟨by decide, by decide⟩, ?_, by decide, by decide⟩
  have h := contextMatchSelectsQualifiedOffset exDocCtx "CAT".toList "aa ".toList " bb".toList 10
    (by decide) (by decide)
  simpa using h

/-! ## C10: empty search text -/

/-- C10.  An empty (or missing) search text makes `findTextWithContext`
return null before any search, even though searching for the empty
string would trivially succeed at offset 0. -/
theorem emptySearchTextNeverResolves (f : DomForest) (b a : Str) :
    findTextWithContext f [] b a = none ∧ ∀ s : Str, strIndexOf s [] = some 0 := by
  constructor
  · rfl
  · intro s; cases s <;> rfl

/-! ## C3: post-match verification -/

/-- C3.  Whenever resolution returns a non-null range, the string
content of that range equals the anchor's exact text; a mismatch is
discarded inside `findTextWithContext`, which then returns null. -/
theorem resolvedRangeTextEqualsExactText (f : DomForest) (t b a : Str) (r : RangeRes)
    (h : findTextWithContext f t b a = some r) :
    rangeToString f r = t := by
  unfold findTextWithContext at h
  split at h
  · exact absurd h (by simp)
  · split at h
    · exact absurd h (by simp)
    · split at h
      · unfold resolveVerify at h
        split at h
        · rename_i hg
          obtain rfl : _ = r := by injection h
          exact hg
        · exact absurd h (by simp)
      · exact absurd h (by simp)
      · exact absurd h (by simp)

/-- Witness for C3: a successful resolution on a concrete document,
whose range indeed materializes exactly the searched text. -/
theorem resolvedRangeTextEqualsExactText_witness :
    findTextWithContext exDocPlain "world".toList [] [] =
      some { startIdx := 0, startOff := 6, endIdx := 0, endOff := 11 } ∧
    rangeToString exDocPlain { startIdx := 0, startOff := 6, endIdx := 0, endOff := 11 } =
      "world".toList := by
  refine ⟨by decide, ?_⟩
  exact resolvedRangeTextEqualsExactText exDocPlain "world".toList [] []
    { startIdx := 0, startOff := 6, endIdx := 0, endOff := 11 } (by decide)

/-! ## C8: materializer boundary mapping -/

theorem buildRuns_mem_stop :
    ∀ (l : List (Nat × Str)) (base : Nat) (r : Run), r ∈ buildRuns l base →
      r.stop = r.start + r.text.length := by
  intro l
  induction l with
  | nil => intro base r hr; simp [buildRuns] at hr
  | cons p rest ih =>
    intro base r hr
    simp only [buildRuns, List.mem_cons] at hr
    rcases hr with rfl | hr
    · rfl
    · exact ih _ _ hr

/-- C8 counterexample.  On runs ab = [0,2) and cd = [2,4), the end
offset 2 (a run boundary) is mapped to run 0 (the earlier run), not to
run 1 as the claim predicts. -/
theorem endBoundaryMapping_counterexample :
    (findEndRun (resolveRuns exDocRuns) 2).map Run.idx = some 0 ∧
    ¬ (findEndRun (resolveRuns exDocRuns) 2).map Run.idx = some 1 := by
  decide

/-- C8 amended.  The start offset is mapped with the half-open interval
[start, stop); the end offset is mapped with the half-open interval
(start, stop], so an end offset landing exactly on a run boundary
resolves to the end of the earlier run (local offset = that run's full
length), not to the start of the next run. -/
theorem boundaryMappingHalfOpen (f : DomForest) (tS tE : Nat) :
    (∀ s, findStartRun (resolveRuns f) tS = some s → s.start ≤ tS ∧ tS < s.stop) ∧
    (∀ e, findEndRun (resolveRuns f) tE = some e →
      e.start < tE ∧ tE ≤ e.stop ∧ (tE = e.stop → tE - e.start = e.text.length)) := by
  constructor
  · intro s hs
    have hp := List.find?_some hs
    simpa using hp
  · intro e he
    have hp := List.find?_some he
    have hm := List.mem_of_find?_eq_some he
    have hstop := buildRuns_mem_stop _ _ _ hm
    simp only [decide_eq_true_eq] at hp
    exact ⟨hp.1, hp.2, fun hb => by omega⟩

/-- Witness for the amended C8 at the boundary input tE = 2 on the runs
of `exDocRuns`: the end maps into the run ab = [0,2) with local offset
2, the full length of that run. -/
theorem boundaryMappingHalfOpen_witness :
    (({ idx := 0, text := "ab".toList, start := 0, stop := 2 } : Run).start ≤ 1 ∧
      (1 : Nat) < ({ idx := 0, text := "ab".toList, start := 0, stop := 2 } : Run).stop) ∧
    (({ idx := 0, text := "ab".toList, start := 0, stop := 2 } : Run).start < 2 ∧
      (2 : Nat) ≤ ({ idx := 0, text := "ab".toList, start := 0, stop := 2 } : Run).stop ∧
      ((2 : Nat) = ({ idx := 0, text := "ab".toList, start := 0, stop := 2 } : Run).stop →
        2 - ({ idx := 0, text := "ab".toList, start := 0, stop := 2 } : Run).start =
          ({ idx := 0, text := "ab".toList, start := 0, stop := 2 } : Run).text.length)) := by
  have h := boundaryMappingHalfOpen exDocRuns 1 2
  exact ⟨h.1 { idx := 0, text := "ab".toList, start := 0, stop := 2 } (by decide),
         h.2 { idx := 0, text := "ab".toList, start := 0, stop := 2 } (by decide)⟩

/-! ## C6: capture degradation -/

/-- C6 counterexample.  Capturing with a start container that is not
among the walked runs leaves contextBefore empty but sets contextAfter
to the first characters of the page text, not the empty string the
claim asserts. -/
theorem captureDegradation_counterexample :
    (createHighlightFromText exDocCapture none 0 "quick".toList "c6".toList).textAfter ≠ [] ∧
    (createHighlightFromText exDocCapture none 0 "quick".toList "c6".toList).textAfter =
      "The quick brown fox".toList ∧
    (createHighlightFromText exDocCapture none 0 "quick".toList "c6".toList).textBefore = [] := by
  decide

/-- C6 amended.  When the selection start cannot be located among the
capture-time runs, the anchor is still produced with the exact selected
text and both offsets defaulted to 0; contextBefore degrades to the
empty string, but contextAfter becomes the first `contextLength`
characters of the capture-time linear text (empty only when the page
text is empty).  Capture never fails outright. -/
theorem captureDegradation_amended (f : DomForest) (sc : Option Nat) (o : Nat) (t id : Str)
    (h : locateStartRun (captureRuns f) sc = none) :
    (createHighlightFromText f sc o t id).text = t ∧
    (createHighlightFromText f sc o t id).textBefore = [] ∧
    (createHighlightFromText f sc o t id).textAfter = (captureFullText f).take contextLength ∧
    (createHighlightFromText f sc o t id).startOffset = 0 ∧
    (createHighlightFromText f sc o t id).endOffset = 0 := by
  simp [createHighlightFromText, h]

/-- Witness for the amended C6 on a concrete page. -/
theorem captureDegradation_amended_witness :
    (createHighlightFromText exDocCapture none 0 "quick".toList "c6w".toList).text =
      "quick".toList ∧
    (createHighlightFromText exDocCapture none 0 "quick".toList "c6w".toList).textBefore = [] ∧
    (createHighlightFromText exDocCapture none 0 "quick".toList "c6w".toList).textAfter =
      (captureFullText exDocCapture).take contextLength ∧
    (createHighlightFromText exDocCapture none 0 "quick".toList "c6w".toList).startOffset = 0 ∧
    (createHighlightFromText exDocCapture none 0 "quick".toList "c6w".toList).endOffset = 0 := by
  exact captureDegradation_amended exDocCapture none 0 "quick".toList "c6w".toList (by decide)

/-! ## C7: the two walks differ on wrapper-owned runs -/

/-- C7.  On a document holding an applied wrapper with visible text,
the capture-time walk includes the wrapper-owned run (its filter only
rejects whitespace-only nodes), while the resolution-time walk excludes
it — the two linearizations differ, although the source comments state
they use the same method. -/
theorem captureWalkIncludesWrapperRuns :
    captureFullText exDocWrapped ≠ resolveFullText exDocWrapped ∧
    captureFullText exDocWrapped = "WRAPPED".toList ++ "rest of text".toList ∧
    resolveFullText exDocWrapped = "rest of text".toList := by
  decide

/-! ## C9: scroll-retry termination and cleanup -/

theorem tryScroll_spec (present : Nat → Bool) :
    ∀ (fuel attempts : Nat), attempts + fuel = scrollMaxAttempts →
      (tryScroll present attempts fuel).attemptsUsed ≤ scrollMaxAttempts ∧
      (tryScroll present attempts fuel).hashCleared = true ∧
      ((tryScroll present attempts fuel).found = true →
        present (tryScroll present attempts fuel).attemptsUsed = true) ∧
      ((∀ k, present k = false) →
        (tryScroll present attempts fuel).found = false ∧
        (tryScroll present attempts fuel).attemptsUsed = scrollMaxAttempts) := by
  intro fuel
  induction fuel with
  | zero =>
    intro attempts hb
    refine ⟨by simp [tryScroll]; omega, by simp [tryScroll], by simp [tryScroll], ?_⟩
    intro _
    simp [tryScroll]
    omega
  | succ fuel ih =>
    intro attempts hb
    unfold tryScroll
    split
    · rename_i hp
      refine ⟨by simp; omega, rfl, fun _ => hp, ?_⟩
      intro hnever
      exact absurd hp (by simp [hnever])
    · split
      · exact ih (attempts + 1) (by omega)
      · rename_i hp hcap
        refine ⟨by simp; omega, rfl, by simp, ?_⟩
        intro _
        refine ⟨rfl, ?_⟩
        simp only []
        omega

/-- C9.  Whenever the fragment triggers the poller, the poller runs at
most `scrollMaxAttempts` attempts, always clears the fragment
(success or exhaustion), reports found only when the element was
present at the final attempt, and gives up with found = false after
exactly `scrollMaxAttempts` attempts when the element never appears;
the procedure is a total function, so every run terminates without
throwing. -/
theorem scrollRetryTerminatesAndClears (hash : Str) (present : Nat → Bool) (res : ScrollResult)
    (h : scrollToHighlightFromHash hash present = some res) :
    res.attemptsUsed ≤ scrollMaxAttempts ∧ res.hashCleared = true ∧
    (res.found = true → present res.attemptsUsed = true) ∧
    ((∀ k, present k = false) → res.found = false ∧ res.attemptsUsed = scrollMaxAttempts) := by
  unfold scrollToHighlightFromHash at h
  split at h
  · obtain rfl : tryScroll present 0 scrollMaxAttempts = res := by injection h
    exact tryScroll_spec present scrollMaxAttempts 0 rfl
  · exact absurd h (by simp)

/-- Witness for C9: a fragment naming an id that never appears; the
poller stops after 10 attempts with the fragment cleared. -/
theorem scrollRetryTerminatesAndClears_witness :
    scrollToHighlightFromHash "#sensenote-abc".toList (fun _ => false) =
      some { found := false, attemptsUsed := 10, hashCleared := true } ∧
    ({ found := false, attemptsUsed := 10, hashCleared := true } : ScrollResult).attemptsUsed ≤
      scrollMaxAttempts ∧
    ({ found := false, attemptsUsed := 10, hashCleared := true } : ScrollResult).hashCleared =
      true := by
  have h : scrollToHighlightFromHash "#sensenote-abc".toList (fun _ => false) =
      some { found := false, attemptsUsed := 10, hashCleared := true } := by rfl
  have hs := scrollRetryTerminatesAndClears "#sensenote-abc".toList (fun _ => false)
    { found := false, attemptsUsed := 10, hashCleared := true } h
  exact ⟨h, hs.1, hs.2.1⟩

/-! ## C4: fallback search and batch isolation -/

/-- C4.  When the context-qualified pattern is absent, resolution falls
back to searching for the exact text alone and takes its first
(leftmost) occurrence; when the exact text is absent too,
`findTextWithContext` returns null; the restoration batch counts that
null as one failure and processes the remaining anchors on the
unchanged document; every anchor of a batch is counted exactly once
(successes + failures = batch length), so no failure aborts the batch. -/
theorem notFoundIsNonFatal (f : DomForest) (t b a : Str) (q : Nat) (h0 : Highlight)
    (hs : List Highlight) :
    (strIndexOf (resolveFullText f) (b ++ t ++ a) = none →
      strIndexOf (resolveFullText f) t = some q →
      resolveSearchIndex (resolveFullText f) t b a = some q ∧
        matchAt (resolveFullText f) t q ∧
        (∀ j, j < q → ¬ matchAt (resolveFullText f) t j)) ∧
    (strIndexOf (resolveFullText f) t = none → findTextWithContext f t b a = none) ∧
    (createRangeFromHighlight f h0 = none →
      restoreHighlights (h0 :: hs) f =
        { success := (restoreHighlights hs f).success
          fail := (restoreHighlights hs f).fail + 1
          doc := (restoreHighlights hs f).doc }) ∧
    (restoreHighlights hs f).success + (restoreHighlights hs f).fail = hs.length := by
  refine ⟨?_, ?_, ?_, restoreHighlights_counts hs f⟩
  · intro hpat hq
    refine ⟨?_, strIndexOf_matchAt hq, strIndexOf_least hq⟩
    rw [List.append_assoc] at hpat
    by_cases hba : b ≠ [] ∨ a ≠ []
    · simp [resolveSearchIndex, hba, hpat, hq]
    · simp [resolveSearchIndex, hba, hq]
  · intro hnone
    have ht : t ≠ [] := by
      intro h'
      subst h'
      rw [strIndexOf_empty_pattern] at hnone
      exact Option.noConfusion hnone
    have hlen : ¬ (t.length = 0) := by simpa using ht
    have hctxnone : strIndexOf (resolveFullText f) (b ++ (t ++ a)) = none := by
      cases hpc : strIndexOf (resolveFullText f) (b ++ (t ++ a)) with
      | none => rfl
      | some p =>
        have hmatch := strIndexOf_matchAt hpc
        rw [← List.append_assoc] at hmatch
        exact absurd (matchAt_concat_inner hmatch) (strIndexOf_none hnone _)
    have hsi : resolveSearchIndex (resolveFullText f) t b a = none := by
      by_cases hba : b ≠ [] ∨ a ≠ []
      · simp [resolveSearchIndex, hba, hctxnone, hnone]
      · simp [resolveSearchIndex, hba, hnone]
    unfold findTextWithContext
    rw [if_neg hlen, hsi]
  · intro hcr
    simp [restoreHighlights, hcr]

/-- Witness for C4 on a three-paragraph page: the anchor with vanished
text fails (counted, document untouched), the two valid anchors are
both restored, and a stale-context anchor falls back to the exact text
at its leftmost occurrence. -/
theorem notFoundIsNonFatal_witness :
    (strIndexOf (resolveFullText exDocBatch) ("zz ".toList ++ "gamma".toList ++ []) = none ∧
      strIndexOf (resolveFullText exDocBatch) "gamma".toList = some 17) ∧
    resolveSearchIndex (resolveFullText exDocBatch) "gamma".toList "zz ".toList [] = some 17 ∧
    createRangeFromHighlight exDocBatch hBad = none ∧
    restoreHighlights (hBad :: [hGood1, hGood2]) exDocBatch =
      { success := (restoreHighlights [hGood1, hGood2] exDocBatch).success
        fail := (restoreHighlights [hGood1, hGood2] exDocBatch).fail + 1
        doc := (restoreHighlights [hGood1, hGood2] exDocBatch).doc } ∧
    (restoreHighlights (hBad :: [hGood1, hGood2]) exDocBatch).success = 2 ∧
    (restoreHighlights (hBad :: [hGood1, hGood2]) exDocBatch).fail = 1 ∧
    hasWrapperF (restoreHighlights (hBad :: [hGood1, hGood2]) exDocBatch).doc "g1".toList = true ∧
    hasWrapperF (restoreHighlights (hBad :: [hGood1, hGood2]) exDocBatch).doc "g2".toList =
      true := by
  have hC := notFoundIsNonFatal exDocBatch "gamma".toList "zz ".toList [] 17 hBad
    [hGood1, hGood2]
  exact ⟨⟨by decide, by decide⟩, (hC.1 (by decide) (by decide)).1, by decide,
    hC.2.2.1 (by decide), by decide, by decide, by decide, by decide⟩

/-! ## C5: idempotence of restoration -/

/-- C5.  A live wrapper carrying the anchor's id makes
`createRangeFromHighlight` return null before any text search, and
consequently restoring an anchor (once or twice) never pushes the
number of live wrappers carrying its id above one. -/
theorem wrapperIdempotence (f : DomForest) (h : Highlight)
    (hc : wrapperCountF f h.id ≤ 1) :
    (hasWrapperF f h.id = true → createRangeFromHighlight f h = none) ∧
    wrapperCountF (restoreHighlights [h] f).doc h.id ≤ 1 ∧
    wrapperCountF (restoreHighlights [h] ((restoreHighlights [h] f).doc)).doc h.id ≤ 1 := by
  have hstep : ∀ g : DomForest, wrapperCountF g h.id ≤ 1 →
      wrapperCountF (restoreHighlights [h] g).doc h.id ≤ 1 := by
    intro g hg
    cases hcr : createRangeFromHighlight g h with
    | none => simpa [restoreHighlights, hcr] using hg
    | some r =>
      have hnw : hasWrapperF g h.id = false := by
        unfold createRangeFromHighlight at hcr
        by_cases hhw : hasWrapperF g h.id = true
        · rw [if_pos hhw] at hcr
          exact absurd hcr (by simp)
        · exact eq_false_of_ne_true hhw
      have h0 := hasWrapperF_false_count g h.id hnw
      have happ := applyHighlight_count g r h.id h0
      simpa [restoreHighlights, hcr] using happ
  refine ⟨?_, hstep f hc, hstep _ (hstep f hc)⟩
  intro hhw
  unfold createRangeFromHighlight
  rw [if_pos hhw]

/-- Witness for C5: restoring the same anchor twice on a concrete page
leaves exactly one wrapper with its id. -/
theorem wrapperIdempotence_witness :
    wrapperCountF exDocBatch hRepeat.id ≤ 1 ∧
    wrapperCountF (restoreHighlights [hRepeat] exDocBatch).doc hRepeat.id ≤ 1 ∧
    wrapperCountF
      (restoreHighlights [hRepeat] ((restoreHighlights [hRepeat] exDocBatch).doc)).doc
      hRepeat.id ≤ 1 ∧
    wrapperCountF
      (restoreHighlights [hRepeat] ((restoreHighlights [hRepeat] exDocBatch).doc)).doc
      hRepeat.id = 1 := by
  have hw := wrapperIdempotence exDocBatch hRepeat (by decide)
  exact ⟨by decide, hw.2.1, hw.2.2, by decide⟩
